import Mathlib

/-!
Verification of the streams-ts lazy sequence library.

Finite sequences produced by the library's generators are modelled as Lean
lists; each generator from `src/generators.ts` and each `Stream` method from
`src/index.ts` / `src/sequencers/filterSequencer.ts` becomes a function on
lists.  Generator loops that are not structurally bounded (`zip`'s
`while (true)`, the `range` loops) take an explicit `fuel` argument counting
loop iterations; a run of the TypeScript generator that performs `k` loop
iterations is reproduced by any `fuel ≥ k`.
-/

namespace StreamsTs

set_option autoImplicit false

universe u v

variable {α : Type u} {β : Type v}

/-! ### take / skip (src/generators.ts lines 119-145) -/

/-- Loop of `take` (`generators.ts` 139-145): `let i = 0;
for (const value of iterable) { if (i++ >= count) break; yield value; }` -/
def takeGo (count : Nat) : Nat → List α → List α
  | _, [] => []
  | i, value :: rest =>
    if count ≤ i then [] else value :: takeGo count (i + 1) rest

/-- `take(iterable, count)` from `generators.ts`. -/
def take (iterable : List α) (count : Nat) : List α :=
  takeGo count 0 iterable

/-- Loop of `skip` (`generators.ts` 119-125): `let i = 0;
for (const value of iterable) { if (i++ < count) continue; yield value; }` -/
def skipGo (count : Nat) : Nat → List α → List α
  | _, [] => []
  | i, value :: rest =>
    if i < count then skipGo count (i + 1) rest
    else value :: skipGo count (i + 1) rest

/-- `skip(iterable, count)` from `generators.ts`. -/
def skip (iterable : List α) (count : Nat) : List α :=
  skipGo count 0 iterable

/-! ### fold / sum / product / count
(src/index.ts lines 128-134, 304-318, 329-331) -/

/-- `Stream.fold(initial, fn)` (`index.ts` 128-134):
`let acc = initial; for (const x of this.sequencer) acc = fn(acc, x); return acc;` -/
def fold (initial : β) (fn : β → α → β) : List α → β
  | [] => initial
  | x :: rest => fold (fn initial x) fn rest

/-- Accumulator loop of `Stream.sum` (`index.ts` 304-310), starting from `acc`. -/
def sumGo (acc : Int) : List Int → Int
  | [] => acc
  | x :: rest => sumGo (acc + x) rest

/-- `Stream.sum()`: `let acc = 0; for (const x of this.sequencer) acc += x;`. -/
def sum (l : List Int) : Int := sumGo 0 l

/-- Accumulator loop of `Stream.product` (`index.ts` 312-318), starting from `acc`. -/
def productGo (acc : Int) : List Int → Int
  | [] => acc
  | x :: rest => productGo (acc * x) rest

/-- `Stream.product()`: `let acc = 1; for (const x of this.sequencer) acc *= x;`. -/
def product (l : List Int) : Int := productGo 1 l

/-- `Stream.count()` (`index.ts` 329-331): `this.fold(0, (acc, _) => acc + 1)`. -/
def count (l : List α) : Nat := fold 0 (fun acc _ => acc + 1) l

/-! ### Error taxonomy (src/errors.ts, src/v1/errors.ts) and JS runtime errors -/

/-- The error kinds of the library (`EmptyStreamReductionError`,
`ArgumentCountError`/`ArgCountError`, `ArgTypeError`, `ArgValueError`,
`ValueError`), plus the JavaScript `TypeError` that `new Map` or calling a
non-function raises.  Each carries the context the source stores in the
error object (operation name, argument count, message). -/
inductive StreamError where
  | emptyStreamReduction
  | argCount (op : String) (numArgs : Nat)
  | argType (msg : String) (op : String)
  | argValue (msg : String) (op : String)
  | valueError (msg : String)
  | jsTypeError
  deriving DecidableEq, Repr

/-! ### reduce, two variants
(src/index.ts lines 293-302 and src/sequencers/filterSequencer.ts 3246-3265) -/

/-- `Stream.reduce(fn)` of `src/index.ts` (lines 293-302): pulls the first
element; if the stream is already exhausted it throws
`EmptyStreamReductionError`, otherwise it folds the remaining elements with
the first element as the initial accumulator. -/
def reduceV1 (fn : α → α → α) : List α → Except StreamError α
  | [] => .error .emptyStreamReduction
  | first :: rest => .ok (fold first fn rest)

/-- Accumulator loop of the later `Stream.reduce` (`filterSequencer.ts`
3262-3264): `while (true) { ... if (done) return acc; acc = fn(acc, value); }` -/
def reduceV2Go (fn : α → α → α) (acc : α) : List α → α
  | [] => acc
  | x :: rest => reduceV2Go fn (fn acc x) rest

/-- `Stream.reduce(fn)` of `src/sequencers/filterSequencer.ts` (3246-3265):
pulls the first element; returns `undefined` (modelled as `none`) if the
stream is empty, otherwise loops the accumulator over the rest. -/
def reduceV2 (fn : α → α → α) : List α → Option α
  | [] => none
  | first :: rest => some (reduceV2Go fn first rest)

/-! ### compare and the operators derived from it
(src/index.ts lines 188-232) -/

/-- `Stream.compare(other)` (`index.ts` 188-200), parameterised by the two
boolean element relations that JavaScript's `x1 < x2` / `x1 > x2` denote:
pull one element from each side per step; `0` when both iterators report
`done` together, `-1`/`1` when exactly one side is exhausted, otherwise
decide by `lt`/`gt` and continue on ties. -/
def compareWith (lt gt : α → α → Bool) : List α → List α → Int
  | [], [] => 0
  | [], _ :: _ => -1
  | _ :: _, [] => 1
  | x1 :: r1, x2 :: r2 =>
    if lt x1 x2 then -1
    else if gt x1 x2 then 1
    else compareWith lt gt r1 r2

/-- `Stream.compare` at element type `number` restricted to non-NaN values:
JavaScript `<` / `>` on such numbers is the natural linear order, modelled on
`Int`. -/
def compareInt (a b : List Int) : Int :=
  compareWith (fun x y => decide (x < y)) (fun x y => decide (x > y)) a b

/-- `Stream.eq(other)` (`index.ts` 206-208): `this.compare(other) === 0`. -/
def eqOp (lt gt : α → α → Bool) (a b : List α) : Bool :=
  compareWith lt gt a b == 0

/-- `Stream.ne(other)` (`index.ts` 214-216): `this.compare(other) !== 0`. -/
def neOp (lt gt : α → α → Bool) (a b : List α) : Bool :=
  compareWith lt gt a b != 0

/-- A JavaScript number: either an ordinary (here: integral) value or `NaN`.
Both `NaN < x` and `NaN > x` are false for every `x` in JavaScript. -/
inductive JsNum where
  | num (v : Int)
  | nan
  deriving DecidableEq, Repr

/-- JavaScript `<` on numbers: false whenever either side is `NaN`. -/
def jsLt : JsNum → JsNum → Bool
  | .num a, .num b => decide (a < b)
  | _, _ => false

/-- JavaScript `>` on numbers: false whenever either side is `NaN`. -/
def jsGt : JsNum → JsNum → Bool
  | .num a, .num b => decide (a > b)
  | _, _ => false

/-! ### chunk / slide (src/generators.ts lines 297-333) -/

/-- Loop of `chunk` (`generators.ts` 297-307): push each element onto
`buffer`; when the buffer reaches size `n`, yield it and start a fresh one;
after the loop, yield the leftover buffer if it is non-empty. -/
def chunkGo (n : Nat) : List α → List α → List (List α)
  | buffer, [] => if buffer.length > 0 then [buffer] else []
  | buffer, x :: rest =>
    let buffer2 := buffer ++ [x]
    if buffer2.length = n then buffer2 :: chunkGo n [] rest
    else chunkGo n buffer2 rest

/-- `chunk(iterable, n)` from `generators.ts`: starts with an empty buffer. -/
def chunk (iterable : List α) (n : Nat) : List (List α) :=
  chunkGo n [] iterable

/-- Straight-line chunking used to reason about `chunkGo`: peel off `n`
elements at a time.  For `n ≥ 1` this agrees with `chunk` (proved below). -/
def chunkDirect (n : Nat) : List α → List (List α)
  | [] => []
  | x :: rest => (x :: rest.take (n - 1)) :: chunkDirect n (rest.drop (n - 1))
  termination_by l => l.length
  decreasing_by simp; omega

/-- Loop of `slide` (`generators.ts` 324-333): push each element onto
`buffer`; whenever the buffer reaches size `n`, yield a snapshot and drop
one element from the front (`buffer.slice(1)`, the default step of 1). -/
def slideGo (n : Nat) : List α → List α → List (List α)
  | _, [] => []
  | buffer, x :: rest =>
    let buffer2 := buffer ++ [x]
    if buffer2.length = n then buffer2 :: slideGo n (buffer2.drop 1) rest
    else slideGo n buffer2 rest

/-- `slide(iterable, n)` from `generators.ts`: starts with an empty buffer. -/
def slide (iterable : List α) (n : Nat) : List (List α) :=
  slideGo n [] iterable

/-! ### zip (src/generators.ts lines 265-272, src/index.ts lines 145-154) -/

/-- `zip(iterables)`: one `next()` per input per step; stop as soon as some
input reports `done`, otherwise yield the list of pulled values.  The
`while (true)` loop is bounded by `fuel`; output tuples are modelled as
lists (one element per input, in source order). -/
def zip (fuel : Nat) (iterables : List (List α)) : List (List α) :=
  match fuel with
  | 0 => []
  | fuel + 1 =>
    if ((iterables.map List.head?).any Option.isNone) then []
    else (iterables.map List.head?).reduceOption ::
      zip fuel (iterables.map List.tail)

/-- The length of the shortest member of a non-empty family of lists
(`0` for the empty family). -/
def famMin : List (List α) → Nat
  | [] => 0
  | [l] => l.length
  | l :: l2 :: rest => min l.length (famMin (l2 :: rest))

/-! ### range (src/generators.ts lines 26-62, src/index.ts lines 23-47) -/

/-- `rangeIncreasing(start, stop, step)` (`generators.ts` 45-47):
`for (let val = start; val < stop; val += step) yield val;`, with `fuel`
bounding the number of loop iterations. -/
def rangeIncreasing (fuel : Nat) (start stop step : Int) : List Int :=
  match fuel with
  | 0 => []
  | fuel + 1 =>
    if start < stop then start :: rangeIncreasing fuel (start + step) stop step
    else []

/-- `rangeDecreasing(start, stop, step)` (`generators.ts` 60-62):
`for (let val = start; val > stop; val += step) yield val;`. -/
def rangeDecreasing (fuel : Nat) (start stop step : Int) : List Int :=
  match fuel with
  | 0 => []
  | fuel + 1 =>
    if start > stop then start :: rangeDecreasing fuel (start + step) stop step
    else []

/-- `rangeStartStopStep(start, stop, step)` (`generators.ts` 26-32): pick the
increasing loop when `start < stop` and the decreasing loop otherwise —
the choice looks only at `start` and `stop`, never at `step`.  The inlined
generator of `Stream.range` (`index.ts` 40-46) has the same body. -/
def rangeStartStopStep (fuel : Nat) (start stop step : Int) : List Int :=
  if start < stop then rangeIncreasing fuel start stop step
  else rangeDecreasing fuel start stop step

/-! ### argument validation (src/sequencers/filterSequencer.ts 2311-2318
versus src/index.ts 112-117) -/

/-- A stream pipeline stage as the later `Stream.map` builds it: the
(possibly non-function) callback argument together with the source
elements.  `none` models a non-function argument value; a function argument
is `some f`. -/
abbrev MapStage (α : Type u) (β : Type v) := Option (α → β) × List α

/-- `Stream.map(fn)` of `src/index.ts` (112-117): no validation of any kind;
the call just wraps the argument and the source in a new lazy stage and
always succeeds, whatever the argument count or type. -/
def mapV1Call (arg : Option (α → β)) (l : List α) :
    Except StreamError (MapStage α β) :=
  .ok (arg, l)

/-- Iterating the stage built by the unvalidated v1 `map`: each pulled
element applies the callback, so a non-function argument (`none`) raises the
JavaScript `TypeError` at the first pull, not at the call site. -/
def mapV1Iterate (arg : Option (α → β)) : List α → Except StreamError (List β)
  | [] => .ok []
  | x :: rest =>
    match arg with
    | none => .error .jsTypeError
    | some f => (mapV1Iterate (some f) rest).map (fun t => f x :: t)

/-- `Stream.map(fn)` of `src/sequencers/filterSequencer.ts` (2311-2318):
`if (arguments.length !== 1) throw new ArgCountError(this.map, arguments.length);
if (typeof fn !== "function") throw new ArgTypeError("fn must be a function", this.map);`
and only then build the lazy stage. -/
def mapV2Call (argCount : Nat) (arg : Option (α → β)) (l : List α) :
    Except StreamError (MapStage α β) :=
  if argCount ≠ 1 then .error (.argCount "map" argCount)
  else
    match arg with
    | none => .error (.argType "fn must be a function" "map")
    | some f => .ok (some f, l)

/-- The generator that `Stream.range` of `src/index.ts` (23-47) selects
after validation: `arguments.length === 1` picks the zero-to-n loop,
otherwise the start/stop/step loop. -/
inductive RangeGen where
  | zeroToN (stop : Int)
  | startStopStep (start stop step : Int)
  deriving DecidableEq, Repr

/-- `Stream.range` of `src/index.ts` (lines 26-47): unlike `map` in the same
file, it does validate synchronously —
`if (arguments.length < 1 || arguments.length > 3)
throw new ArgumentCountError(this, arguments.length);
if (step == 0) throw new ValueError("Stream.range(): step must not be zero")`
— before constructing the lazy generator. -/
def rangeCall (argCount : Nat) (bound1 bound2 step : Int) :
    Except StreamError RangeGen :=
  if argCount < 1 ∨ argCount > 3 then .error (.argCount "range" argCount)
  else if step = 0 then .error (.valueError "Stream.range(): step must not be zero")
  else if argCount = 1 then .ok (.zeroToN bound1)
  else .ok (.startStopStep bound1 bound2 step)

/-- `Stream.chunk(n)` of `src/index.ts` (156-170): `if (n <= 0) throw new
ValueError("Stream.chunk(): n must be greater than zero");` at call time,
then wrap the window size and the source in the lazy stage. -/
def chunkV1Call (n : Int) (l : List α) : Except StreamError (Int × List α) :=
  if n ≤ 0 then .error (.valueError "Stream.chunk(): n must be greater than zero")
  else .ok (n, l)

/-- `Stream.slide(n, step = 1)` of `src/index.ts` (172-186): same call-time
guard as `chunk` — the source's message says `Stream.chunk()` here too. -/
def slideV1Call (n : Int) (l : List α) : Except StreamError (Int × List α) :=
  if n ≤ 0 then .error (.valueError "Stream.chunk(): n must be greater than zero")
  else .ok (n, l)

/-! ### toMap (src/sequencers/filterSequencer.ts lines 2076-2092) -/

/-- An element of a stream that `toMap` consumes: either a two-element
key-value array or some other, non-tuple value. -/
inductive JsVal where
  | pair (k v : Int)
  | nonPair
  deriving DecidableEq, Repr

/-- `Map.prototype.set` on an insertion-ordered association list: an existing
key keeps its position and gets the new value, a fresh key is appended. -/
def mapSet (entries : List (Int × Int)) (k v : Int) : List (Int × Int) :=
  if entries.any (fun e => e.1 = k) then
    entries.map (fun e => if e.1 = k then (k, v) else e)
  else entries ++ [(k, v)]

/-- `new Map(iterable)`: consume the entries in order, throwing the
JavaScript `TypeError` at the first element that is not a key-value array. -/
def jsMapNewGo (acc : List (Int × Int)) : List JsVal → Except StreamError (List (Int × Int))
  | [] => .ok acc
  | .nonPair :: _ => .error .jsTypeError
  | .pair k v :: rest => jsMapNewGo (mapSet acc k v) rest

/-- `new Map(iterable)` starting from the empty map. -/
def jsMapNew (l : List JsVal) : Except StreamError (List (Int × Int)) :=
  jsMapNewGo [] l

/-- `Stream.toMap()` of `src/sequencers/filterSequencer.ts` (2076-2092):
after the arity check, `try { return new Map(this.sequencer); }
catch (e) { if (e instanceof TypeError) throw new ArgTypeError(...); throw e; }`. -/
def toMap (argCount : Nat) (l : List JsVal) : Except StreamError (List (Int × Int)) :=
  if argCount ≠ 0 then .error (.argCount "toMap" argCount)
  else
    match jsMapNew l with
    | .ok m => .ok m
    | .error .jsTypeError =>
      .error (.argType "values in the stream  must be key-value pairs arrays" "toMap")
    | .error e => .error e

/-! ### helper lemmas -/

theorem takeGo_eq (count : Nat) (l : List α) :
    ∀ i : Nat, takeGo count i l = l.take (count - i) := by
  induction l with
  | nil => intro i; simp [takeGo]
  | cons v rest ih =>
    intro i
    simp only [takeGo]
    split
    · have h : count - i = 0 := by omega
      simp [h]
    · have h : count - i = (count - (i + 1)) + 1 := by omega
      rw [h, List.take_succ_cons, ih]

theorem skipGo_eq (count : Nat) (l : List α) :
    ∀ i : Nat, skipGo count i l = l.drop (count - i) := by
  induction l with
  | nil => intro i; simp [skipGo]
  | cons v rest ih =>
    intro i
    simp only [skipGo]
    split
    · have h : count - i = (count - (i + 1)) + 1 := by omega
      rw [h, List.drop_succ_cons, ih]
    · have h : count - i = 0 := by omega
      rw [h, ih, List.drop_zero]
      have h2 : count - (i + 1) = 0 := by omega
      rw [h2, List.drop_zero]

theorem take_eq (l : List α) (n : Nat) : take l n = l.take n := by
  simp [take, takeGo_eq]

theorem skip_eq (l : List α) (n : Nat) : skip l n = l.drop n := by
  simp [skip, skipGo_eq]

theorem reduceV2Go_eq_fold (fn : α → α → α) (l : List α) :
    ∀ acc : α, reduceV2Go fn acc l = fold acc fn l := by
  induction l with
  | nil => intro acc; rfl
  | cons x rest ih => intro acc; simp [reduceV2Go, fold, ih]

theorem compareInt_eq_zero_iff : ∀ a b : List Int, compareInt a b = 0 ↔ a = b := by
  intro a
  induction a with
  | nil => intro b; cases b <;> simp [compareInt, compareWith]
  | cons x r ih =>
    intro b
    cases b with
    | nil => simp [compareInt, compareWith]
    | cons y s =>
      by_cases h1 : x < y
      · have hxy : x ≠ y := by omega
        simp [compareInt, compareWith, h1, hxy]
      · by_cases h2 : y < x
        · have hxy : x ≠ y := by omega
          simp [compareInt, compareWith, h1, h2, hxy]
        · have hxy : x = y := by omega
          have := ih s
          simp [compareInt, compareWith, h1, h2, hxy] at this ⊢
          exact this

theorem compareInt_append_cons :
    ∀ (a t : List Int) (x : Int),
      compareInt a (a ++ x :: t) = -1 ∧ compareInt (a ++ x :: t) a = 1 := by
  intro a
  induction a with
  | nil => intro t x; exact ⟨rfl, rfl⟩
  | cons y r ih =>
    intro t x
    have h : ¬ y < y := lt_irrefl y
    have := ih t x
    constructor <;> simp [compareInt, compareWith, h] at this ⊢ <;>
      [exact this.1; exact this.2]

theorem compareWith_forall₂_zero (lt gt : α → α → Bool) :
    ∀ {a b : List α},
      List.Forall₂ (fun x y => lt x y = false ∧ gt x y = false) a b →
      compareWith lt gt a b = 0 := by
  intro a b h
  induction h with
  | nil => rfl
  | cons hxy _ ih => simp [compareWith, hxy.1, hxy.2, ih]

theorem chunkDirect_eq_take_drop (n : Nat) (hn : 0 < n) (l : List α) (hl : l ≠ []) :
    chunkDirect n l = l.take n :: chunkDirect n (l.drop n) := by
  cases l with
  | nil => exact absurd rfl hl
  | cons x rest =>
    obtain ⟨m, rfl⟩ : ∃ m, n = m + 1 := ⟨n - 1, by omega⟩
    simp [chunkDirect, List.take_succ_cons, List.drop_succ_cons]

theorem chunkGo_eq_chunkDirect (n : Nat) (hn : 0 < n) :
    ∀ (l buffer : List α), buffer.length < n →
      chunkGo n buffer l = chunkDirect n (buffer ++ l) := by
  intro l
  induction l with
  | nil =>
    intro buffer hb
    cases buffer with
    | nil => simp [chunkGo, chunkDirect]
    | cons y ys =>
      simp only [chunkGo, List.append_nil, List.length_cons]
      rw [if_pos (by omega)]
      have hble : ys.length ≤ n - 1 := by simp at hb; omega
      have ht : ys.take (n - 1) = ys := List.take_of_length_le hble
      have hd : ys.drop (n - 1) = [] := List.drop_eq_nil_of_le hble
      simp [chunkDirect, ht, hd]
  | cons x rest ih =>
    intro buffer hb
    simp only [chunkGo]
    have hsplit : buffer ++ x :: rest = (buffer ++ [x]) ++ rest := by simp
    by_cases hfull : (buffer ++ [x]).length = n
    · rw [if_pos hfull]
      rw [hsplit, chunkDirect_eq_take_drop n hn ((buffer ++ [x]) ++ rest) (by simp)]
      rw [List.take_left' hfull, List.drop_left' hfull]
      rw [ih [] (by simpa using hn)]
      rfl
    · rw [if_neg hfull]
      have hlt : (buffer ++ [x]).length < n := by simp at hfull ⊢; omega
      rw [ih (buffer ++ [x]) hlt, hsplit]

theorem chunkDirect_eq_nil_iff (n : Nat) (l : List α) :
    chunkDirect n l = [] ↔ l = [] := by
  cases l <;> simp [chunkDirect]

theorem ceilDiv_aux (n m : Nat) (hn : 0 < n) :
    ((m - (n - 1)) + n - 1) / n = m / n := by
  by_cases h : n - 1 ≤ m
  · rw [show (m - (n - 1)) + n - 1 = m from by omega]
  · rw [show (m - (n - 1)) + n - 1 = n - 1 from by omega]
    rw [Nat.div_eq_of_lt (by omega), Nat.div_eq_of_lt (by omega)]

theorem chunkDirect_length (n : Nat) (hn : 0 < n) :
    ∀ l : List α, (chunkDirect n l).length = (l.length + n - 1) / n := by
  intro l
  induction l using chunkDirect.induct n with
  | case1 =>
    simp only [chunkDirect, List.length_nil, Nat.zero_add]
    rw [Nat.div_eq_of_lt (by omega)]
  | case2 x rest ih =>
    simp only [chunkDirect, List.length_cons, List.length_drop] at ih ⊢
    rw [ih]
    rw [show rest.length + 1 + n - 1 = rest.length + n from by omega,
      Nat.add_div_right _ hn]
    rw [show rest.length - (n - 1) + n - 1 = (rest.length - (n - 1)) + n - 1 from rfl,
      ceilDiv_aux n rest.length hn]

theorem chunkDirect_dropLast_sizes (n : Nat) (hn : 0 < n) :
    ∀ l : List α, ∀ g ∈ (chunkDirect n l).dropLast, g.length = n := by
  intro l
  induction l using chunkDirect.induct n with
  | case1 => simp [chunkDirect]
  | case2 x rest ih =>
    intro g hg
    simp only [chunkDirect] at hg
    rcases hcs : chunkDirect n (rest.drop (n - 1)) with _ | ⟨c, cs⟩
    · rw [hcs] at hg
      simp at hg
    · rw [hcs] at hg
      rw [List.dropLast_cons_of_ne_nil (by simp)] at hg
      rcases List.mem_cons.mp hg with h | h
      · subst h
        have hrest : rest.drop (n - 1) ≠ [] := by
          intro hnil
          rw [hnil] at hcs
          simp [chunkDirect] at hcs
        have : n - 1 < rest.length := by
          by_contra hcon
          exact hrest (List.drop_eq_nil_of_le (by omega))
        simp [List.length_take]
        omega
      · exact ih g (by rw [hcs]; exact h)

theorem chunkDirect_getLast_size (n : Nat) (hn : 0 < n) :
    ∀ l : List α, ∀ g, (chunkDirect n l).getLast? = some g →
      g.length = if l.length % n = 0 then n else l.length % n := by
  intro l
  induction l using chunkDirect.induct n with
  | case1 => simp [chunkDirect]
  | case2 x rest ih =>
    intro g hg
    simp only [chunkDirect] at hg
    rcases hcs : chunkDirect n (rest.drop (n - 1)) with _ | ⟨c, cs⟩
    · rw [hcs] at hg
      simp only [List.getLast?_singleton, Option.some_inj] at hg
      subst hg
      have hrest : rest.length ≤ n - 1 := by
        by_contra hcon
        have hne : rest.drop (n - 1) ≠ [] := by
          intro hnil
          have := List.drop_eq_nil_iff.mp hnil
          omega
        exact hne ((chunkDirect_eq_nil_iff n (rest.drop (n - 1))).mp hcs)
      rw [List.take_of_length_le hrest]
      simp only [List.length_cons]
      by_cases hfull : rest.length + 1 = n
      · rw [show (rest.length + 1) % n = 0 from by rw [hfull]; exact Nat.mod_self n]
        simp [hfull]
      · rw [Nat.mod_eq_of_lt (by omega)]
        simp
    · rw [hcs] at hg
      rw [List.getLast?_cons_cons] at hg
      have hlast := ih g (by rw [hcs]; exact hg)
      have hrest : n - 1 < rest.length := by
        by_contra hcon
        have : chunkDirect n (rest.drop (n - 1)) = [] := by
          rw [List.drop_eq_nil_of_le (by omega)]
          simp [chunkDirect]
        rw [hcs] at this
        simp at this
    -- (x :: rest).length % n = (rest.drop (n-1)).length % n since the lengths
    -- differ by exactly n
      have hmod : (rest.length + 1) % n = (rest.length - (n - 1)) % n := by
        rw [Nat.mod_eq_sub_mod (by omega : n ≤ rest.length + 1)]
        congr 1
        omega
      simp only [List.length_cons, List.length_drop] at hlast ⊢
      rw [hmod]
      exact hlast

theorem slideGo_length (n : Nat) :
    ∀ (l buffer : List α), buffer.length < n →
      (slideGo n buffer l).length = buffer.length + l.length + 1 - n := by
  intro l
  induction l with
  | nil =>
    intro buffer hb
    simp only [slideGo, List.length_nil]
    omega
  | cons x rest ih =>
    intro buffer hb
    simp only [slideGo]
    by_cases hfull : (buffer ++ [x]).length = n
    · rw [if_pos hfull]
      simp only [List.length_cons]
      rw [ih ((buffer ++ [x]).drop 1) (by simp; omega)]
      simp at hfull ⊢
      omega
    · rw [if_neg hfull]
      rw [ih (buffer ++ [x]) (by simp at hfull ⊢; omega)]
      simp
      omega

theorem slideGo_mem_sizes (n : Nat) :
    ∀ (l buffer : List α), ∀ g ∈ slideGo n buffer l, g.length = n := by
  intro l
  induction l with
  | nil => intro buffer g hg; simp [slideGo] at hg
  | cons x rest ih =>
    intro buffer g hg
    simp only [slideGo] at hg
    by_cases hfull : (buffer ++ [x]).length = n
    · rw [if_pos hfull] at hg
      rcases List.mem_cons.mp hg with h | h
      · rw [h]; exact hfull
      · exact ih _ g h
    · rw [if_neg hfull] at hg
      exact ih _ g hg

theorem zip_stop_iff : ∀ ls : List (List α), ls ≠ [] →
    (((ls.map List.head?).any Option.isNone) = true ↔ famMin ls = 0) := by
  intro ls
  induction ls with
  | nil => intro h; exact absurd rfl h
  | cons l rest ih =>
    intro _
    cases rest with
    | nil =>
      simp [famMin, Option.isNone_iff_eq_none, List.head?_eq_none_iff,
        List.length_eq_zero]
    | cons l2 rest2 =>
      have h2 := ih (by simp)
      simp only [List.map_cons, List.any_cons, Bool.or_eq_true, famMin,
        Nat.min_eq_zero_iff]
      rw [← h2]
      simp [Option.isNone_iff_eq_none, List.head?_eq_none_iff, List.length_eq_zero]

theorem famMin_tail : ∀ ls : List (List α), famMin (ls.map List.tail) = famMin ls - 1 := by
  intro ls
  induction ls with
  | nil => rfl
  | cons l rest ih =>
    cases rest with
    | nil => simp [famMin, List.length_tail]
    | cons l2 rest2 =>
      simp only [List.map_cons, famMin, List.length_tail] at ih ⊢
      rw [ih]
      omega

theorem zip_length : ∀ (fuel : Nat) (ls : List (List α)), ls ≠ [] →
    famMin ls < fuel → (zip fuel ls).length = famMin ls := by
  intro fuel
  induction fuel with
  | zero => intro ls h hlt; omega
  | succ fuel ih =>
    intro ls hne hlt
    simp only [zip]
    by_cases hstop : ((ls.map List.head?).any Option.isNone) = true
    · rw [if_pos hstop]
      have h0 := (zip_stop_iff ls hne).mp hstop
      simp [h0]
    · rw [if_neg hstop]
      have hpos : famMin ls ≠ 0 := fun h0 => hstop ((zip_stop_iff ls hne).mpr h0)
      simp only [List.length_cons]
      rw [ih (ls.map List.tail) (by simpa using hne) (by rw [famMin_tail]; omega)]
      rw [famMin_tail]
      omega

theorem zip_two : ∀ (fuel : Nat) (a b : List α), min a.length b.length < fuel →
    zip fuel [a, b] = (a.zip b).map (fun p => [p.1, p.2]) := by
  intro fuel
  induction fuel with
  | zero => intro a b h; omega
  | succ fuel ih =>
    intro a b h
    cases a with
    | nil => simp [zip]
    | cons x as =>
      cases b with
      | nil => simp [zip]
      | cons y bs =>
        simp only [zip, List.map_cons, List.map_nil, List.head?_cons,
          List.tail_cons]
        rw [if_neg (by simp)]
        rw [ih as bs (by simp at h; omega)]
        simp [List.zip_cons_cons, List.reduceOption_cons_of_some]

theorem rangeIncreasing_mem (stop step : Int) (hstep : 0 < step) :
    ∀ (fuel : Nat) (start : Int), ∀ x ∈ rangeIncreasing fuel start stop step,
      start ≤ x ∧ x < stop := by
  intro fuel
  induction fuel with
  | zero => intro start x hx; simp [rangeIncreasing] at hx
  | succ fuel ih =>
    intro start x hx
    simp only [rangeIncreasing] at hx
    by_cases h : start < stop
    · rw [if_pos h] at hx
      rcases List.mem_cons.mp hx with h1 | h1
      · subst h1; exact ⟨le_refl x, h⟩
      · have h2 := ih (start + step) x h1
        constructor <;> omega
    · rw [if_neg h] at hx
      simp at hx

theorem rangeDecreasing_mem (stop step : Int) (hstep : step < 0) :
    ∀ (fuel : Nat) (start : Int), ∀ x ∈ rangeDecreasing fuel start stop step,
      stop < x ∧ x ≤ start := by
  intro fuel
  induction fuel with
  | zero => intro start x hx; simp [rangeDecreasing] at hx
  | succ fuel ih =>
    intro start x hx
    simp only [rangeDecreasing] at hx
    by_cases h : start > stop
    · rw [if_pos h] at hx
      rcases List.mem_cons.mp hx with h1 | h1
      · subst h1; exact ⟨h, le_refl x⟩
      · have h2 := ih (start + step) x h1
        constructor <;> omega
    · rw [if_neg h] at hx
      simp at hx

theorem rangeIncreasing_not_stop (stop step : Int) :
    ∀ (fuel : Nat) (start : Int), stop ∉ rangeIncreasing fuel start stop step := by
  intro fuel
  induction fuel with
  | zero => intro start hx; simp [rangeIncreasing] at hx
  | succ fuel ih =>
    intro start hx
    simp only [rangeIncreasing] at hx
    by_cases h : start < stop
    · rw [if_pos h] at hx
      rcases List.mem_cons.mp hx with h1 | h1
      · omega
      · exact ih (start + step) h1
    · rw [if_neg h] at hx
      simp at hx

theorem rangeDecreasing_not_stop (stop step : Int) :
    ∀ (fuel : Nat) (start : Int), stop ∉ rangeDecreasing fuel start stop step := by
  intro fuel
  induction fuel with
  | zero => intro start hx; simp [rangeDecreasing] at hx
  | succ fuel ih =>
    intro start hx
    simp only [rangeDecreasing] at hx
    by_cases h : start > stop
    · rw [if_pos h] at hx
      rcases List.mem_cons.mp hx with h1 | h1
      · omega
      · exact ih (start + step) h1
    · rw [if_neg h] at hx
      simp at hx

theorem jsMapNewGo_error_of_mem : ∀ (l : List JsVal) (acc : List (Int × Int)),
    JsVal.nonPair ∈ l → jsMapNewGo acc l = .error .jsTypeError := by
  intro l
  induction l with
  | nil => intro acc h; simp at h
  | cons x rest ih =>
    intro acc h
    cases x with
    | nonPair => rfl
    | pair k v =>
      have hmem : JsVal.nonPair ∈ rest := by
        rcases List.mem_cons.mp h with h1 | h1
        · exact absurd h1 (by simp)
        · exact h1
      simp [jsMapNewGo, ih _ hmem]

theorem jsMapNewGo_ok_of_not_mem : ∀ (l : List JsVal) (acc : List (Int × Int)),
    JsVal.nonPair ∉ l → ∃ m, jsMapNewGo acc l = .ok m := by
  intro l
  induction l with
  | nil => intro acc _; exact ⟨acc, rfl⟩
  | cons x rest ih =>
    intro acc h
    cases x with
    | nonPair => exact absurd (List.mem_cons_self _ _) h
    | pair k v =>
      have hmem : JsVal.nonPair ∉ rest := fun hr => h (List.mem_cons_of_mem _ hr)
      exact ih (mapSet acc k v) hmem

/-! ### Claim theorems -/

/-- C1: for every finite sequence `S` and every `n` with `0 ≤ n ≤ len(S)`, the
elements produced by `take(S, n)` followed by those of `skip(S, n)` are exactly
the elements of `S`, in order. -/
theorem take_append_skip (S : List α) (n : Nat) (_h : n ≤ S.length) :
    take S n ++ skip S n = S := by
  rw [take_eq, skip_eq, List.take_append_drop]

theorem take_append_skip_witness :
    2 ≤ ([10, 20, 30] : List Int).length ∧
      take ([10, 20, 30] : List Int) 2 ++ skip ([10, 20, 30] : List Int) 2 =
        [10, 20, 30] :=
  ⟨by decide, take_append_skip [10, 20, 30] 2 (by decide)⟩

/-- C6: the repository holds both empty-`reduce` variants: `Stream.reduce`
in `src/index.ts` throws `EmptyStreamReductionError` on an empty stream,
while the later `Stream.reduce` in `src/sequencers/filterSequencer.ts`
returns the sentinel `undefined`; on every non-empty stream both return the
fold of the remaining elements with the first element as initial
accumulator. -/
theorem reduce_variants (fn : α → α → α) :
    reduceV1 fn ([] : List α) = .error .emptyStreamReduction ∧
      reduceV2 fn ([] : List α) = none ∧
      ∀ (first : α) (rest : List α),
        reduceV1 fn (first :: rest) = .ok (fold first fn rest) ∧
          reduceV2 fn (first :: rest) = some (fold first fn rest) :=
  ⟨rfl, rfl, fun first rest =>
    ⟨rfl, by simp [reduceV2, reduceV2Go_eq_fold]⟩⟩

/-- C4: `compare` walks both finite streams in lockstep pulling one element
from each side per step, decides with the natural `<`/`>` ordering on the
elements, returns `0` only when both sides exhaust simultaneously (for a
linear order this forces the lists to be equal), and a stream that is a
strict prefix of the other — exhausting first while equal so far — compares
as `-1`, the longer one as `1`. -/
theorem compare_lexicographic :
    (∀ a b : List Int, compareInt a b = 0 ↔ a = b) ∧
      ∀ (a t : List Int) (x : Int),
        compareInt a (a ++ x :: t) = -1 ∧ compareInt (a ++ x :: t) a = 1 :=
  ⟨compareInt_eq_zero_iff, compareInt_append_cons⟩

theorem compare_lexicographic_witness :
    compareInt [1, 2] [1, 2] = 0 ∧
      compareInt [1, 2] [1, 2, 9] = -1 ∧ compareInt [1, 2, 9] [1, 2] = 1 :=
  ⟨(compare_lexicographic.1 [1, 2] [1, 2]).2 rfl,
    (compare_lexicographic.2 [1, 2] [] 9).1,
    (compare_lexicographic.2 [1, 2] [] 9).2⟩

/-- C10: `compare` treats an adjacent pair with neither `x1 < x2` nor
`x1 > x2` as equal and moves on, so two element-wise different equal-length
streams whose element pairs are all incomparable (e.g. `NaN` against any
number in JavaScript) compare as `0`, making `eq` return `true` and `ne`
return `false` for them. -/
theorem compare_incomparable_equal :
    (∀ (lt gt : α → α → Bool) (a b : List α),
      List.Forall₂ (fun x y => lt x y = false ∧ gt x y = false) a b →
        compareWith lt gt a b = 0) ∧
      [JsNum.nan] ≠ [JsNum.num 5] ∧
        compareWith jsLt jsGt [JsNum.nan] [JsNum.num 5] = 0 ∧
        eqOp jsLt jsGt [JsNum.nan] [JsNum.num 5] = true ∧
        neOp jsLt jsGt [JsNum.nan] [JsNum.num 5] = false :=
  ⟨fun lt gt _ _ h => compareWith_forall₂_zero lt gt h,
    by decide, rfl, rfl, rfl⟩

theorem compare_incomparable_equal_witness :
    compareWith jsLt jsGt [JsNum.nan, JsNum.num 3] [JsNum.num 1, JsNum.num 3] = 0 :=
  compare_incomparable_equal.1 jsLt jsGt _ _
    (List.Forall₂.cons ⟨rfl, rfl⟩ (List.Forall₂.cons ⟨rfl, rfl⟩ List.Forall₂.nil))

/-- C2: for a finite sequence of length `L` and `n ≥ 1`, `chunk(seq, n)`
yields exactly `⌈L/n⌉ = (L + n - 1) / n` groups, each of size `n` except
possibly the last, whose size is `L mod n` if that is nonzero and `n`
otherwise; and `slide(seq, n)` (default step 1) yields exactly
`max(0, L - n + 1)` groups (`L + 1 - n` in truncated Nat subtraction), each
of exact size `n`. -/
theorem chunk_slide_sizes (l : List α) (n : Nat) (hn : 1 ≤ n) :
    (chunk l n).length = (l.length + n - 1) / n ∧
      (∀ g ∈ (chunk l n).dropLast, g.length = n) ∧
      (∀ g, (chunk l n).getLast? = some g →
        g.length = if l.length % n = 0 then n else l.length % n) ∧
      (slide l n).length = l.length + 1 - n ∧
      ∀ g ∈ slide l n, g.length = n := by
  have hc : chunk l n = chunkDirect n l := by
    have h := chunkGo_eq_chunkDirect n hn l [] (by simpa using hn)
    simpa [chunk] using h
  refine ⟨?_, ?_, ?_, ?_, ?_⟩
  · rw [hc]; exact chunkDirect_length n hn l
  · rw [hc]; exact chunkDirect_dropLast_sizes n hn l
  · rw [hc]; exact chunkDirect_getLast_size n hn l
  · have h := slideGo_length n l [] (by simpa using hn)
    simpa [slide] using h
  · exact fun g hg => slideGo_mem_sizes n l [] g hg

theorem chunk_slide_sizes_witness :
    (chunk ([1, 2, 3, 4, 5] : List Int) 2).length = 3 ∧
      (∀ g, (chunk ([1, 2, 3, 4, 5] : List Int) 2).getLast? = some g →
        g.length = 1) ∧
      (slide ([1, 2, 3, 4, 5] : List Int) 2).length = 4 :=
  ⟨(chunk_slide_sizes [1, 2, 3, 4, 5] 2 (by decide)).1,
    (chunk_slide_sizes [1, 2, 3, 4, 5] 2 (by decide)).2.2.1,
    (chunk_slide_sizes [1, 2, 3, 4, 5] 2 (by decide)).2.2.2.1⟩

/-- C3: `zip` yields tuples of one element from each input in source order
and stops as soon as any input is exhausted: for every non-empty family the
number of tuples is the length of the shortest input (given enough fuel for
the loop), and for two inputs the output is exactly the element-wise pairing
`List.zip`, hence `min(len(a), len(b))` tuples (`List.length_zip`). -/
theorem zip_shortest :
    (∀ (fuel : Nat) (ls : List (List α)), ls ≠ [] → famMin ls < fuel →
      (zip fuel ls).length = famMin ls) ∧
      ∀ (fuel : Nat) (a b : List α), min a.length b.length < fuel →
        zip fuel [a, b] = (a.zip b).map fun p => [p.1, p.2] :=
  ⟨zip_length, zip_two⟩

theorem zip_shortest_witness :
    (zip 4 ([[1, 2, 3], [4, 5], [6, 7, 8, 9]] : List (List Int))).length = 2 ∧
      zip 4 ([[1, 2, 3], [4, 5]] : List (List Int)) = [[1, 4], [2, 5]] :=
  ⟨zip_shortest.1 4 [[1, 2, 3], [4, 5], [6, 7, 8, 9]] (by decide) (by decide),
    zip_shortest.2 4 [1, 2, 3] [4, 5] (by decide)⟩

/-- C5 counterexample: with a step whose sign does not match the
comparison-selected direction, `rangeStartStopStep` leaves the half-open
interval instead of producing it — `range(0, 10, -2)` takes the increasing
branch (since `0 < 10`) yet yields `0, -2, -4, ...`, and `-2` lies outside
`[0, 10)`, refuting "for every nonzero step the multi-argument range
produces the half-open interval". -/
theorem range_wrong_sign_escapes :
    rangeStartStopStep 3 0 10 (-2) = [0, -2, -4] ∧
      (-2 : Int) ∈ rangeStartStopStep 3 0 10 (-2) ∧ ¬((0 : Int) ≤ -2) := by
  refine ⟨by decide, by decide, by decide⟩

/-- C5 (amended): the multi-argument range selects its direction by
comparing `start` and `stop` only — increasing iteration when
`start < stop`, decreasing otherwise — independent of the step's sign; it
always yields `start` first when `start ≠ stop` and never yields `stop`;
and when the step's sign matches the selected direction every produced
value lies in the half-open interval (`start ≤ x < stop`, respectively
`stop < x ≤ start`); `Stream.range(0, 10, 2)` yields `[0, 2, 4, 6, 8]`. -/
theorem range_halfopen :
    (∀ (fuel : Nat) (start stop step : Int), start ≠ stop → 0 < fuel →
      (rangeStartStopStep fuel start stop step).head? = some start) ∧
      (∀ (fuel : Nat) (start stop step : Int),
        stop ∉ rangeStartStopStep fuel start stop step) ∧
      (∀ (fuel : Nat) (start stop step : Int), start < stop →
        rangeStartStopStep fuel start stop step =
          rangeIncreasing fuel start stop step) ∧
      (∀ (fuel : Nat) (start stop step : Int), ¬ start < stop →
        rangeStartStopStep fuel start stop step =
          rangeDecreasing fuel start stop step) ∧
      (∀ (fuel : Nat) (start stop step : Int), start < stop → 0 < step →
        ∀ x ∈ rangeStartStopStep fuel start stop step, start ≤ x ∧ x < stop) ∧
      (∀ (fuel : Nat) (start stop step : Int), ¬ start < stop → step < 0 →
        ∀ x ∈ rangeStartStopStep fuel start stop step, stop < x ∧ x ≤ start) ∧
      rangeStartStopStep 10 0 10 2 = [0, 2, 4, 6, 8] := by
  refine ⟨?_, ?_, ?_, ?_, ?_, ?_, by decide⟩
  · intro fuel start stop step hne hf
    obtain ⟨f, rfl⟩ : ∃ f, fuel = f + 1 := ⟨fuel - 1, by omega⟩
    by_cases h : start < stop
    · simp [rangeStartStopStep, rangeIncreasing, h]
    · have h2 : start > stop := by omega
      simp [rangeStartStopStep, rangeDecreasing, h, h2]
  · intro fuel start stop step
    unfold rangeStartStopStep
    split
    · exact rangeIncreasing_not_stop stop step fuel start
    · exact rangeDecreasing_not_stop stop step fuel start
  · intro fuel start stop step h
    simp [rangeStartStopStep, h]
  · intro fuel start stop step h
    simp [rangeStartStopStep, h]
  · intro fuel start stop step h hstep x hx
    rw [rangeStartStopStep, if_pos h] at hx
    exact rangeIncreasing_mem stop step hstep fuel start x hx
  · intro fuel start stop step h hstep x hx
    rw [rangeStartStopStep, if_neg h] at hx
    exact rangeDecreasing_mem stop step hstep fuel start x hx

theorem range_halfopen_witness :
    (rangeStartStopStep 3 7 3 (-1)).head? = some 7 ∧
      ∀ x ∈ rangeStartStopStep 12 0 10 2, (0 : Int) ≤ x ∧ x < 10 :=
  ⟨range_halfopen.1 3 7 3 (-1) (by decide) (by decide),
    range_halfopen.2.2.2.2.1 12 0 10 2 (by decide) (by decide)⟩

/-- C8 counterexample: not every public Stream operation validates its
arguments at call time — `Stream.map` of `src/index.ts` performs no checks
at all, so a call with a non-function argument succeeds at the call site
and only fails later, during iteration, with a plain JavaScript
`TypeError`; the validated variant of `map` rejects the same call
synchronously. -/
theorem map_unvalidated_call :
    mapV1Call (none : Option (Int → Int)) [1] = .ok (none, [1]) ∧
      mapV1Iterate (none : Option (Int → Int)) [1] = .error .jsTypeError ∧
      mapV2Call 1 (none : Option (Int → Int)) [1] =
        .error (.argType "fn must be a function" "map") :=
  ⟨rfl, rfl, rfl⟩

/-- C8 (amended): argument validation is not uniform across the public
Stream operations.  The later Stream variant
(`src/sequencers/filterSequencer.ts`) validates the exact argument count
and the argument types synchronously at call time before any iteration
(shown for its representative `map`: wrong arity raises `ArgCountError`,
a non-function raises `ArgTypeError`, a well-formed call builds the lazy
stage).  In the earlier variant (`src/index.ts`) some operations do
validate synchronously — `range` throws `ArgumentCountError` for an
argument count outside 1..3 and `ValueError` for a zero step, and
`chunk`/`slide` throw `ValueError` for `n ≤ 0` — but its `map` performs no
validation at all: every call succeeds at the call site and a non-function
argument surfaces only during later iteration, as a JavaScript
`TypeError` on the first pulled element. -/
theorem validation_variants :
    (∀ (argCount : Nat) (arg : Option (α → β)) (l : List α), argCount ≠ 1 →
      mapV2Call argCount arg l = .error (.argCount "map" argCount)) ∧
      (∀ l : List α, mapV2Call 1 (none : Option (α → β)) l =
        .error (.argType "fn must be a function" "map")) ∧
      (∀ (f : α → β) (l : List α), mapV2Call 1 (some f) l = .ok (some f, l)) ∧
      (∀ (arg : Option (α → β)) (l : List α), mapV1Call arg l = .ok (arg, l)) ∧
      (∀ (x : α) (l : List α),
        mapV1Iterate (none : Option (α → β)) (x :: l) = .error .jsTypeError) ∧
      (∀ (argCount : Nat) (b1 b2 step : Int), argCount < 1 ∨ argCount > 3 →
        rangeCall argCount b1 b2 step = .error (.argCount "range" argCount)) ∧
      (∀ (argCount : Nat) (b1 b2 : Int), 1 ≤ argCount → argCount ≤ 3 →
        rangeCall argCount b1 b2 0 =
          .error (.valueError "Stream.range(): step must not be zero")) ∧
      (∀ (n : Int) (l : List α), n ≤ 0 →
        chunkV1Call n l =
          .error (.valueError "Stream.chunk(): n must be greater than zero")) ∧
      ∀ (n : Int) (l : List α), n ≤ 0 →
        slideV1Call n l =
          .error (.valueError "Stream.chunk(): n must be greater than zero") := by
  refine ⟨?_, ?_, fun f l => ?_, fun arg l => rfl, fun x l => rfl,
    ?_, ?_, ?_, ?_⟩
  · intro argCount arg l h
    simp [mapV2Call, h]
  · intro l
    simp [mapV2Call]
  · simp [mapV2Call]
  · intro argCount b1 b2 step h
    simp only [rangeCall]
    rw [if_pos h]
  · intro argCount b1 b2 h1 h3
    have h : ¬(argCount < 1 ∨ argCount > 3) := by omega
    simp only [rangeCall]
    rw [if_neg h]
    simp
  · intro n l h
    simp [chunkV1Call, h]
  · intro n l h
    simp [slideV1Call, h]

theorem validation_variants_witness :
    mapV2Call 2 (some (fun x : Int => x)) ([1] : List Int) =
      .error (.argCount "map" 2) ∧
      rangeCall 4 0 10 2 = .error (.argCount "range" 4) ∧
      rangeCall 3 0 10 0 =
        .error (.valueError "Stream.range(): step must not be zero") ∧
      chunkV1Call 0 ([1] : List Int) =
        .error (.valueError "Stream.chunk(): n must be greater than zero") ∧
      slideV1Call (-1) ([1] : List Int) =
        .error (.valueError "Stream.chunk(): n must be greater than zero") :=
  ⟨(@validation_variants Int Int).1 2 (some (fun x => x)) [1] (by decide),
    (@validation_variants Int Int).2.2.2.2.2.1 4 0 10 2 (by omega),
    (@validation_variants Int Int).2.2.2.2.2.2.1 3 0 10 (by omega) (by omega),
    (@validation_variants Int Int).2.2.2.2.2.2.2.1 0 [1] (by omega),
    (@validation_variants Int Int).2.2.2.2.2.2.2.2 (-1) [1] (by omega)⟩

/-- C9: when `toMap()` consumes a stream containing a non-2-tuple element,
the `TypeError` thrown by the underlying `new Map` construction is
intercepted and re-signaled as a domain-specific `ArgTypeError` naming
`toMap`; the error arises when `toMap` pulls the elements (streams without
such an element convert fine), while building the pipeline stages
beforehand is a total operation with no error channel. -/
theorem toMap_intercepts :
    (∀ l : List JsVal, JsVal.nonPair ∈ l →
      toMap 0 l = .error
        (.argType "values in the stream  must be key-value pairs arrays" "toMap")) ∧
      ∀ l : List JsVal, JsVal.nonPair ∉ l → ∃ m, toMap 0 l = .ok m := by
  constructor
  · intro l h
    simp [toMap, jsMapNew, jsMapNewGo_error_of_mem l [] h]
  · intro l h
    obtain ⟨m, hm⟩ := jsMapNewGo_ok_of_not_mem l [] h
    exact ⟨m, by simp [toMap, jsMapNew, hm]⟩

theorem toMap_intercepts_witness :
    toMap 0 [JsVal.pair 1 2, JsVal.nonPair] =
      .error (.argType "values in the stream  must be key-value pairs arrays" "toMap") ∧
      ∃ m, toMap 0 [JsVal.pair 1 2, JsVal.pair 3 4] = .ok m :=
  ⟨toMap_intercepts.1 _ (by decide), toMap_intercepts.2 _ (by decide)⟩

/-- C7: on an empty stream, `sum()` returns 0, `product()` returns 1,
`count()` returns 0, and `fold(z, f)` returns `z` for every `z` and `f`. -/
theorem empty_terminal_identities :
    sum [] = 0 ∧ product [] = 1 ∧ count ([] : List α) = 0 ∧
      ∀ (z : β) (f : β → α → β), fold z f [] = z :=
  ⟨rfl, rfl, rfl, fun _ _ => rfl⟩

end StreamsTs
